import Mathlib

/-!
# Verification of the BionicFlow RSVP reader core

Shallow embedding of the reader's core logic:

* `tokenizeText` and `getHighlightRange` from `utils/textProcessor.ts`;
* `getDelay`, `startReading`, `pauseReading` and `handleFinish` from the
  `Reader` component;
* `handleReadingFinish` from the `App` component.

Strings are modelled as `List Char`; JavaScript numbers are modelled as exact
values (`Nat` for integer counters and timestamps, `ℚ` for quantities produced
by division).  `Math.floor` / `Math.ceil` / `Math.round` are modelled exactly
on `ℚ`; for the word lengths that occur, the double-precision products such as
`len * 0.35` round to a value with the same ceiling as the exact rational
`len * 35/100` (the fractional parts are multiples of `1/20`, far larger than
the rounding error), so the exact model agrees with the JS computation.
-/

namespace BionicFlow

/-! ### JavaScript numeric primitives -/

/-- `Math.floor`, on the exact rational model of JS numbers. -/
def jsFloor (q : ℚ) : Int := Rat.floor q

/-- `Math.ceil`, on the exact rational model of JS numbers. -/
def jsCeil (q : ℚ) : Int := -Rat.floor (-q)

/-- `Math.round` (rounds half up), on the exact rational model of JS numbers. -/
def jsRound (q : ℚ) : Int := jsFloor (q + 1 / 2)

lemma jsFloor_eq (q : ℚ) : jsFloor q = ⌊q⌋ := by
  rw [jsFloor, Rat.floor_def' q, Rat.floor_def]

lemma jsCeil_eq (q : ℚ) : jsCeil q = ⌈q⌉ := by
  rw [jsCeil, Rat.floor_def' (-q), ← Rat.floor_def, Int.floor_neg, neg_neg]

lemma jsCeil_eq_of (q : ℚ) (n : Int) (h1 : (n : ℚ) - 1 < q) (h2 : q ≤ n) :
    jsCeil q = n := by
  rw [jsCeil_eq, Int.ceil_eq_iff]
  exact ⟨h1, h2⟩

lemma jsFloor_eq_of (q : ℚ) (n : Int) (h1 : (n : ℚ) ≤ q) (h2 : q < n + 1) :
    jsFloor q = n := by
  rw [jsFloor_eq, Int.floor_eq_iff]
  exact ⟨h1, h2⟩

/-! ### Tokenizer (`tokenizeText` in `utils/textProcessor.ts`) -/

/-- Whitespace, as matched by the `\s` class of the splitting regex on the
characters this app feeds it (space, tab, carriage return, line feed). -/
def isWs (c : Char) : Bool := c.isWhitespace

/-- `String.prototype.trim`: strip leading and trailing whitespace. -/
def jsTrim (s : List Char) : List Char :=
  ((s.dropWhile isWs).reverse.dropWhile isWs).reverse

/-- Worker for `jsSplitWs`.  Walks the string left to right; `inWs` records
whether we are inside a whitespace run, `cur` is the piece being built
(reversed), `acc` the finished pieces (reversed). -/
def splitWsAux : List Char → Bool → List Char → List (List Char) → List (List Char)
  | [], _, cur, acc => (cur.reverse :: acc).reverse
  | c :: rest, inWs, cur, acc =>
    if isWs c then
      if inWs then splitWsAux rest true cur acc
      else splitWsAux rest true [] (cur.reverse :: acc)
    else
      if inWs then splitWsAux rest false [c] acc
      else splitWsAux rest false (c :: cur) acc

/-- `String.prototype.split(/\s+/)`: the pieces between maximal whitespace
runs.  As in JavaScript, the empty string yields `[""]`, and a string that
starts (resp. ends) with whitespace yields a leading (resp. trailing) empty
piece. -/
def jsSplitWs (s : List Char) : List (List Char) := splitWsAux s false [] []

/-- A display token (`WordToken` in `types.ts`). -/
structure WordToken where
  word : List Char
  originalIndex : Nat
  hasPunctuation : Bool
deriving DecidableEq, Repr

/-- The character class of the regex `/[.,;?!]$/`. -/
def isPunct (c : Char) : Bool :=
  c = '.' || c = ',' || c = ';' || c = '?' || c = '!'

/-- `/[.,;?!]$/.test(word)`: the word is non-empty and its final character is
one of `.` `,` `;` `?` `!`. -/
def testTrailingPunct (w : List Char) : Bool :=
  match w.getLast? with
  | some c => isPunct c
  | none => false

/-- `tokenizeText`: trim, split on whitespace runs, and flag trailing
punctuation on each piece. -/
def tokenizeText (text : List Char) : List WordToken :=
  (jsSplitWs (jsTrim text)).mapIdx fun index word =>
    ⟨word, index, testTrailingPunct word⟩

/-! ### Focal-point calculator (`getHighlightRange`) -/

/-- `HighlightMode` in `types.ts`. -/
inductive HighlightMode
  | FIRST_LETTER
  | FIRST_TWO
  | FIRST_HALF
  | ORP_OPTIMAL
  | NONE
deriving DecidableEq, Repr

/-- The result record of `getHighlightRange`; `end` is exclusive, `-1` is the
"nothing highlighted" sentinel used by the `NONE` mode. -/
structure HighlightRange where
  start : Int
  «end» : Int
  alignIndex : Int
deriving DecidableEq, Repr

/-- `getHighlightRange` from `utils/textProcessor.ts` (`len` is `word.length`,
written out at each use). -/
def getHighlightRange (word : List Char) (mode : HighlightMode) : HighlightRange :=
  match mode with
  | .FIRST_LETTER => ⟨0, 1, 0⟩
  | .FIRST_TWO =>
      ⟨0, min 2 word.length, if min 2 word.length = 2 then 1 else 0⟩
  | .FIRST_HALF =>
      ⟨0, jsCeil ((word.length : ℚ) / 2),
        jsFloor (((jsCeil ((word.length : ℚ) / 2) : ℚ) - 1) / 2)⟩
  | .ORP_OPTIMAL =>
      let orpIndex : Int :=
        if word.length ≤ 1 then 0 else jsCeil ((word.length : ℚ) * (35 / 100)) - 1
      ⟨orpIndex, orpIndex + 1, orpIndex⟩
  | .NONE => ⟨-1, -1, jsFloor ((word.length : ℚ) / 2)⟩

/-! ### Per-token delay (`getDelay` in the `Reader` component) -/

/-- `getDelay`: base delay `60000 / wpm` ms, `* 1.5` on trailing punctuation,
else `* 1.3` on words longer than 10 characters. -/
def getDelay (wpm : Nat) (tok : WordToken) : ℚ :=
  let baseDelay : ℚ := 60000 / (wpm : ℚ)
  if tok.hasPunctuation then baseDelay * (3 / 2)
  else if 10 < tok.word.length then baseDelay * (13 / 10)
  else baseDelay

/-! ### Playback scheduler (state and operations of the `Reader` component)

Timestamps (`Date.now()`) are modelled as natural numbers of milliseconds;
call sites pass nondecreasing timestamps, matching a monotone wall clock.
The mutable refs and state hooks of the component are collected into one
record; `timer` records whether a `setTimeout` advance is pending. -/

structure SchedState where
  index : Nat
  isPlaying : Bool
  wpm : Nat
  sessionStart : Option Nat
  totalPauseDuration : Nat
  pauseStart : Option Nat
  timer : Bool
deriving DecidableEq, Repr

/-- The component's state right after mounting. -/
def initState (initialWpm : Nat) : SchedState :=
  { index := 0, isPlaying := false, wpm := initialWpm, sessionStart := none
    totalPauseDuration := 0, pauseStart := none, timer := false }

/-- `stopTimer`: clear any pending advance. -/
def stopTimer (s : SchedState) : SchedState := { s with timer := false }

/-- `startReading` (play): no-op when the cursor is past the end; otherwise
set playing, fold a pending pause interval into `totalPauseDuration`, record
`sessionStart` on first play only, and schedule the next advance.  `N` is
`words.length`. -/
def startReading (N : Nat) (now : Nat) (s : SchedState) : SchedState :=
  if N ≤ s.index then s
  else
    { s with
      isPlaying := true
      totalPauseDuration := s.totalPauseDuration +
        (match s.pauseStart with | some p => now - p | none => 0)
      pauseStart := none
      sessionStart := some (s.sessionStart.getD now)
      timer := true }

/-- `pauseReading`: stop playing, cancel the pending advance, and record the
pause start — unconditionally overwriting any previously recorded one. -/
def pauseReading (now : Nat) (s : SchedState) : SchedState :=
  { (stopTimer s) with isPlaying := false, pauseStart := some now }

/-- The state change of `handleFinish` (`setIsPlaying(false)` and
`stopTimer()`). -/
def handleFinishState (s : SchedState) : SchedState :=
  { s with isPlaying := false, timer := false }

/-- The values `handleFinish` passes to `onFinish`: words read, active
duration in seconds, and the final rate. -/
def handleFinishReport (now : Nat) (s : SchedState) : Nat × ℚ × Nat :=
  (s.index + 1,
    match s.sessionStart with
    | some t0 => (((now : ℚ) - (t0 : ℚ)) - (s.totalPauseDuration : ℚ)) / 1000
    | none => 0,
    s.wpm)

/-- The scheduled advance firing: step the cursor, or finish when the next
cursor would run past the end. -/
def advanceStep (N : Nat) (s : SchedState) : SchedState :=
  if N ≤ s.index + 1 then handleFinishState s
  else { s with index := s.index + 1, timer := true }

/-- Call sequences of the scheduler under its intended protocol: operations
arrive at nondecreasing timestamps, and `pause` and the timer-driven advance
occur only while playing.  `Reach N s t` means state `s` is reachable with
`t` the time of the last operation. -/
inductive Reach (N : Nat) : SchedState → Nat → Prop
  | init (w0 t : Nat) : Reach N (initState w0) t
  | play {s : SchedState} {t : Nat} (t' : Nat) :
      Reach N s t → t ≤ t' → Reach N (startReading N t' s) t'
  | pause {s : SchedState} {t : Nat} (t' : Nat) :
      Reach N s t → t ≤ t' → s.isPlaying = true → Reach N (pauseReading t' s) t'
  | advance {s : SchedState} {t : Nat} (t' : Nat) :
      Reach N s t → t ≤ t' → s.isPlaying = true → Reach N (advanceStep N s) t'
  | finish {s : SchedState} {t : Nat} (t' : Nat) :
      Reach N s t → t ≤ t' → Reach N (handleFinishState s) t'

/-! ### Session recording (`handleReadingFinish` in the `App` component) -/

/-- `ReadingSession` in `types.ts`; `id` (a stringified timestamp) is
modelled by the timestamp itself. -/
structure ReadingSession where
  id : Nat
  date : Nat
  wordsRead : Nat
  durationSeconds : Int
  wpm : Nat
deriving DecidableEq, Repr

/-- `ReadingStats` in `types.ts`. -/
structure ReadingStats where
  totalWords : Nat
  totalTimeSeconds : Int
  sessions : List ReadingSession
deriving DecidableEq, Repr

/-- `handleReadingFinish`: record the session into the statistics only when
it is significant (`duration > 10` seconds or `wordsRead > 50`); `now` is the
`Date.now()` value used for the new session's `id` and `date`. -/
def handleReadingFinish (stats : ReadingStats) (now : Nat) (wordsRead : Nat)
    (duration : ℚ) (finalWpm : Nat) : ReadingStats :=
  if 10 < duration ∨ 50 < wordsRead then
    { totalWords := stats.totalWords + wordsRead
      totalTimeSeconds := stats.totalTimeSeconds + jsRound duration
      sessions := stats.sessions ++ [⟨now, now, wordsRead, jsRound duration, finalWpm⟩] }
  else stats

/-! ### Tokenizer lemmas -/

lemma head?_dropWhile_ws (l : List Char) :
    ∀ c, (l.dropWhile isWs).head? = some c → isWs c = false := by
  induction l with
  | nil => simp
  | cons a l ih =>
    intro c hc
    rw [List.dropWhile_cons] at hc
    by_cases ha : isWs a
    · rw [if_pos ha] at hc
      exact ih c hc
    · rw [if_neg ha] at hc
      simp only [List.head?_cons, Option.some.injEq] at hc
      subst hc
      exact Bool.eq_false_iff.2 ha

lemma getLast?_dropWhile (p : Char → Bool) (l : List Char)
    (h : l.dropWhile p ≠ []) : (l.dropWhile p).getLast? = l.getLast? := by
  induction l with
  | nil => simp at h
  | cons a l ih =>
    rw [List.dropWhile_cons]
    by_cases ha : p a
    · rw [List.dropWhile_cons, if_pos ha] at h
      have hl : l ≠ [] := by
        rintro rfl
        simp at h
      rw [if_pos ha, ih h]
      cases l with
      | nil => exact absurd rfl hl
      | cons b m => rw [List.getLast?_cons_cons]
    · rw [if_neg ha]

lemma jsTrim_head? (s : List Char) :
    ∀ c, (jsTrim s).head? = some c → isWs c = false := by
  intro c hc
  rw [jsTrim, List.head?_reverse] at hc
  have hne : (s.dropWhile isWs).reverse.dropWhile isWs ≠ [] := by
    rintro h
    rw [h] at hc
    simp at hc
  rw [getLast?_dropWhile _ _ hne, List.getLast?_reverse] at hc
  exact head?_dropWhile_ws s c hc

lemma jsTrim_getLast? (s : List Char) :
    ∀ c, (jsTrim s).getLast? = some c → isWs c = false := by
  intro c hc
  rw [jsTrim, List.getLast?_reverse] at hc
  exact head?_dropWhile_ws _ c hc

lemma jsTrim_eq_nil {s : List Char} (h : ∀ c ∈ s, isWs c = true) :
    jsTrim s = [] := by
  have h1 : s.dropWhile isWs = [] := List.dropWhile_eq_nil_iff.2 h
  simp [jsTrim, h1]

lemma jsTrim_ne_nil {s : List Char} (h : ∃ c ∈ s, isWs c = false) :
    jsTrim s ≠ [] := by
  obtain ⟨c, hcs, hc⟩ := h
  have h1 : s.dropWhile isWs ≠ [] := by
    intro hnil
    have := List.dropWhile_eq_nil_iff.1 hnil c hcs
    simp [hc] at this
  rw [jsTrim]
  cases ht1 : s.dropWhile isWs with
  | nil => exact absurd ht1 h1
  | cons a rest =>
    have ha : isWs a = false := head?_dropWhile_ws s a (by rw [ht1]; rfl)
    have hmem : a ∈ (a :: rest).reverse :=
      List.mem_reverse.2 (List.mem_cons_self a rest)
    intro hnil
    rw [List.reverse_eq_nil_iff] at hnil
    have := List.dropWhile_eq_nil_iff.1 hnil a hmem
    simp [ha] at this

lemma splitWsAux_ne_nil (s : List Char) (inWs : Bool) (cur : List Char)
    (acc : List (List Char)) : splitWsAux s inWs cur acc ≠ [] := by
  induction s generalizing inWs cur acc with
  | nil => simp [splitWsAux]
  | cons c rest ih =>
    rw [splitWsAux]
    by_cases hc : isWs c
    · rw [if_pos hc]
      by_cases hiw : inWs = true
      · rw [if_pos hiw]; exact ih _ _ _
      · rw [if_neg hiw]; exact ih _ _ _
    · rw [if_neg hc]
      by_cases hiw : inWs = true
      · rw [if_pos hiw]; exact ih _ _ _
      · rw [if_neg hiw]; exact ih _ _ _

/-- The central invariant of the whitespace split: starting outside a
whitespace run, with all closed pieces non-empty, a string whose last
character is not whitespace — and whose first character is not whitespace
whenever the current piece is still empty — only ever produces non-empty
pieces. -/
lemma splitWsAux_forall_ne_nil (s : List Char) :
    ∀ (inWs : Bool) (cur : List Char) (acc : List (List Char)),
      (∀ p ∈ acc, p ≠ ([] : List Char)) →
      (inWs = true → cur = []) →
      (∀ c, s.getLast? = some c → isWs c = false) →
      (s = [] → cur ≠ []) →
      (inWs = false → cur = [] → ∀ c, s.head? = some c → isWs c = false) →
      ∀ p ∈ splitWsAux s inWs cur acc, p ≠ [] := by
  induction s with
  | nil =>
    intro inWs cur acc hacc _ _ hcur _ p hp
    rw [splitWsAux, List.mem_reverse] at hp
    rcases List.mem_cons.1 hp with rfl | hpacc
    · simpa using hcur rfl
    · exact hacc p hpacc
  | cons c rest ih =>
    intro inWs cur acc hacc hinWs hlast hnil hhead
    by_cases hc : isWs c = true
    · have hrne : rest ≠ [] := by
        rintro rfl
        have := hlast c (by rw [List.getLast?_singleton])
        simp [hc] at this
      have hlast' : ∀ d, rest.getLast? = some d → isWs d = false := by
        intro d hd
        apply hlast
        cases rest with
        | nil => exact absurd rfl hrne
        | cons b m => rw [List.getLast?_cons_cons]; exact hd
      by_cases hiw : inWs = true
      · rw [splitWsAux, if_pos hc, if_pos hiw]
        exact ih true cur acc hacc (fun _ => hinWs hiw) hlast'
          (fun h => absurd h hrne) (fun h => by simp at h)
      · have hcur_ne : cur ≠ [] := by
          rintro rfl
          have := hhead (Bool.not_eq_true inWs ▸ hiw) rfl c (by rw [List.head?_cons])
          simp [hc] at this
        rw [splitWsAux, if_pos hc, if_neg hiw]
        refine ih true [] (cur.reverse :: acc) ?_ (fun _ => rfl) hlast'
          (fun h => absurd h hrne) (fun h => by simp at h)
        intro p hp
        rcases List.mem_cons.1 hp with rfl | h
        · simpa using hcur_ne
        · exact hacc p h
    · have hlast' : ∀ d, rest.getLast? = some d → isWs d = false := by
        intro d hd
        apply hlast
        cases rest with
        | nil => simp at hd
        | cons b m => rw [List.getLast?_cons_cons]; exact hd
      by_cases hiw : inWs = true
      · rw [splitWsAux, if_neg hc, if_pos hiw]
        exact ih false [c] acc hacc (fun h => by simp at h) hlast'
          (fun _ => by simp) (fun _ h => by simp at h)
      · rw [splitWsAux, if_neg hc, if_neg hiw]
        exact ih false (c :: cur) acc hacc (fun h => by simp at h) hlast'
          (fun _ => by simp) (fun _ h => by simp at h)

lemma jsSplitWs_forall_ne_nil (s : List Char) (hne : s ≠ [])
    (hh : ∀ c, s.head? = some c → isWs c = false)
    (hl : ∀ c, s.getLast? = some c → isWs c = false) :
    ∀ p ∈ jsSplitWs s, p ≠ [] :=
  splitWsAux_forall_ne_nil s false [] []
    (by intro p hp; simp at hp) (fun h => by simp at h) hl
    (fun h => absurd h hne) (fun _ _ => hh)

/-- Every token of `tokenizeText` carries one of the split pieces as its
word, with the trailing-punctuation flag computed from that word. -/
lemma tokenizeText_mem {text : List Char} {t : WordToken}
    (ht : t ∈ tokenizeText text) :
    t.word ∈ jsSplitWs (jsTrim text) ∧
      t.hasPunctuation = testTrailingPunct t.word := by
  rw [tokenizeText, List.mapIdx_eq_enum_map] at ht
  obtain ⟨⟨i, w⟩, hmem, rfl⟩ := List.mem_map.1 ht
  refine ⟨?_, rfl⟩
  have h := List.mem_enum_iff_getElem?.1 hmem
  exact List.getElem?_mem h

lemma tokenizeText_of_all_ws {s : List Char} (h : ∀ c ∈ s, isWs c = true) :
    tokenizeText s = [⟨[], 0, false⟩] := by
  rw [tokenizeText, jsTrim_eq_nil h]
  decide

lemma one_le_length_tokenizeText (s : List Char) :
    1 ≤ (tokenizeText s).length := by
  rw [tokenizeText, List.length_mapIdx]
  exact List.length_pos.2 (splitWsAux_ne_nil _ _ _ _)

/-! ### Scheduler timing invariant -/

/-- Timing invariant of a scheduler state at (current time) `t`: while
playing there is no pending pause and a session has started; before the
first play nothing has been accumulated; and the accumulated pause duration
never exceeds the elapsed session time (with a pending pause accounted up to
its start). -/
def TimeInv (s : SchedState) (t : Nat) : Prop :=
  (s.isPlaying = true → s.pauseStart = none ∧ s.sessionStart ≠ none) ∧
  (s.sessionStart = none → s.totalPauseDuration = 0 ∧ s.pauseStart = none) ∧
  (∀ t0, s.sessionStart = some t0 →
    t0 ≤ t ∧
    (s.pauseStart = none → s.totalPauseDuration + t0 ≤ t) ∧
    (∀ p, s.pauseStart = some p → p ≤ t ∧ s.totalPauseDuration + t0 ≤ p))

lemma TimeInv.mono {s : SchedState} {t t' : Nat} (h : TimeInv s t)
    (hle : t ≤ t') : TimeInv s t' := by
  obtain ⟨h1, h2, h3⟩ := h
  refine ⟨h1, h2, ?_⟩
  intro t0 h0
  obtain ⟨ha, hb, hc⟩ := h3 t0 h0
  exact ⟨le_trans ha hle, fun hp => le_trans (hb hp) hle,
    fun p hp => ⟨le_trans (hc p hp).1 hle, (hc p hp).2⟩⟩

/-- Transfer the invariant across an operation that leaves all timing
fields unchanged and does not switch playback on. -/
lemma TimeInv.congr_fields {s s' : SchedState} {t : Nat} (h : TimeInv s t)
    (h1 : s'.sessionStart = s.sessionStart) (h2 : s'.pauseStart = s.pauseStart)
    (h3 : s'.totalPauseDuration = s.totalPauseDuration)
    (hp : s'.isPlaying = true → s.isPlaying = true) : TimeInv s' t := by
  obtain ⟨i1, i2, i3⟩ := h
  refine ⟨?_, ?_, ?_⟩
  · intro hpl
    obtain ⟨a, b⟩ := i1 (hp hpl)
    exact ⟨h2.trans a, h1 ▸ b⟩
  · intro h0
    obtain ⟨a, b⟩ := i2 (h1 ▸ h0)
    exact ⟨h3.trans a, h2.trans b⟩
  · intro t0 h0
    obtain ⟨a, b, c⟩ := i3 t0 (h1 ▸ h0)
    refine ⟨a, ?_, ?_⟩
    · intro hps
      exact h3 ▸ b (h2 ▸ hps)
    · intro p hps
      obtain ⟨u, v⟩ := c p (h2 ▸ hps)
      exact ⟨u, h3 ▸ v⟩

/-- Every state reachable under the scheduler protocol satisfies the
timing invariant at the time of its last operation. -/
lemma reach_timeInv {N : Nat} {s : SchedState} {t : Nat}
    (h : Reach N s t) : TimeInv s t := by
  induction h with
  | init w0 t =>
    refine ⟨?_, ?_, ?_⟩ <;> simp [initState]
  | play t' hr hle ih =>
    rename_i s t
    by_cases hN : N ≤ s.index
    · rw [startReading, if_pos hN]
      exact (ih.mono hle)
    · rw [startReading, if_neg hN]
      refine ⟨fun _ => ⟨rfl, by simp⟩, fun h0 => by simp at h0, ?_⟩
      intro t0 h0
      simp only [Option.some.injEq] at h0
      cases hss : s.sessionStart with
      | none =>
        obtain ⟨hz, hpn⟩ := ih.2.1 hss
        rw [hss] at h0
        simp only [Option.getD_none] at h0
        subst h0
        refine ⟨le_refl _, ?_, ?_⟩
        · intro _
          simp [hz, hpn]
        · intro p hp
          simp at hp
      | some u =>
        rw [hss] at h0
        simp only [Option.getD_some] at h0
        subst h0
        obtain ⟨ha, hb, hc⟩ := ih.2.2 u hss
        refine ⟨le_trans ha hle, ?_, ?_⟩
        · intro _
          cases hps : s.pauseStart with
          | none =>
            have := hb hps
            simp only [hps]
            omega
          | some p =>
            obtain ⟨hp1, hp2⟩ := hc p hps
            simp only [hps]
            omega
        · intro p hp
          simp at hp
  | pause t' hr hle hplay ih =>
    rename_i s t
    obtain ⟨hpn, hsn⟩ := ih.1 hplay
    refine ⟨fun h0 => by simp [pauseReading, stopTimer] at h0, ?_, ?_⟩
    · intro h0
      simp only [pauseReading, stopTimer] at h0
      exact absurd h0 hsn
    · intro t0 h0
      simp only [pauseReading, stopTimer] at h0 ⊢
      obtain ⟨ha, hb, _⟩ := ih.2.2 t0 h0
      refine ⟨le_trans ha hle, ?_, ?_⟩
      · intro hp
        simp at hp
      · intro p hp
        simp only [Option.some.injEq] at hp
        subst hp
        exact ⟨le_refl _, le_trans (hb hpn) hle⟩
  | advance t' hr hle hplay ih =>
    rename_i s t
    rw [advanceStep]
    by_cases hN : N ≤ s.index + 1
    · rw [if_pos hN]
      exact (ih.mono hle).congr_fields rfl rfl rfl (fun h0 => by simp [handleFinishState] at h0)
    · rw [if_neg hN]
      exact (ih.mono hle).congr_fields rfl rfl rfl (fun _ => hplay)
  | finish t' hr hle ih =>
    exact (ih.mono hle).congr_fields rfl rfl rfl
      (fun h0 => by simp [handleFinishState] at h0)

/-! ### Claims -/

/-- C1: Under `ORP_OPTIMAL`, a word of length `len ≥ 2` gets exactly the
single character at index `idx = ⌈len * 0.35⌉ - 1` highlighted
(`start = idx`, `end = idx + 1`, `alignIndex = idx`); for `len ≤ 1` the
index degenerates to `0`; in particular `"apple"` yields
`{start := 1, end := 2, alignIndex := 1}`. -/
theorem orp_highlights_single_char :
    (∀ w : List Char, 2 ≤ w.length →
      getHighlightRange w .ORP_OPTIMAL =
        ⟨⌈(w.length : ℚ) * (35 / 100)⌉ - 1, (⌈(w.length : ℚ) * (35 / 100)⌉ - 1) + 1,
          ⌈(w.length : ℚ) * (35 / 100)⌉ - 1⟩) ∧
    (∀ w : List Char, w.length ≤ 1 →
      getHighlightRange w .ORP_OPTIMAL = ⟨0, 1, 0⟩) ∧
    getHighlightRange "apple".toList .ORP_OPTIMAL = ⟨1, 2, 1⟩ := by
  refine ⟨?_, ?_, ?_⟩
  · intro w hw
    simp only [getHighlightRange]
    rw [if_neg (by omega), jsCeil_eq]
  · intro w hw
    simp only [getHighlightRange]
    rw [if_pos hw]
    decide
  · simp only [getHighlightRange, show ("apple".toList).length = 5 from by decide]
    rw [if_neg (by norm_num),
      jsCeil_eq_of (((5 : Nat) : ℚ) * (35 / 100)) 2 (by norm_num) (by norm_num)]
    decide

/-- C1 witness: the formula instantiated at `"apple"` (length 5 ≥ 2) and
the degenerate case at `"a"` (length 1). -/
theorem orp_highlights_single_char_witness :
    getHighlightRange "apple".toList .ORP_OPTIMAL =
      ⟨⌈(("apple".toList).length : ℚ) * (35 / 100)⌉ - 1,
        (⌈(("apple".toList).length : ℚ) * (35 / 100)⌉ - 1) + 1,
        ⌈(("apple".toList).length : ℚ) * (35 / 100)⌉ - 1⟩ ∧
    getHighlightRange "a".toList .ORP_OPTIMAL = ⟨0, 1, 0⟩ :=
  ⟨orp_highlights_single_char.1 "apple".toList (by decide),
    orp_highlights_single_char.2.1 "a".toList (by decide)⟩

/-- C2: the per-token delay is `base = 60000 / wpm` times exactly one
multiplier, chosen exclusively: `1.5` on trailing punctuation, else `1.3`
when the word has more than 10 characters, else `1`; punctuation takes
precedence over length. -/
theorem delay_exclusive_multipliers (wpm : Nat) (tok : WordToken) :
    (tok.hasPunctuation = true → getDelay wpm tok = 60000 / (wpm : ℚ) * (3 / 2)) ∧
    (tok.hasPunctuation = false → 10 < tok.word.length →
      getDelay wpm tok = 60000 / (wpm : ℚ) * (13 / 10)) ∧
    (tok.hasPunctuation = false → tok.word.length ≤ 10 →
      getDelay wpm tok = 60000 / (wpm : ℚ)) := by
  refine ⟨?_, ?_, ?_⟩
  · intro h
    simp [getDelay, h]
  · intro h h10
    simp [getDelay, h, h10]
  · intro h h10
    simp [getDelay, h, Nat.not_lt.2 h10]

/-- C2 witness: the three delay cases at rate 300 on concrete tokens. -/
theorem delay_exclusive_multipliers_witness :
    getDelay 300 ⟨"word.".toList, 0, true⟩ = 60000 / (300 : ℚ) * (3 / 2) ∧
    getDelay 300 ⟨"abcdefghijk".toList, 1, false⟩ = 60000 / (300 : ℚ) * (13 / 10) ∧
    getDelay 300 ⟨"hi".toList, 2, false⟩ = 60000 / (300 : ℚ) :=
  ⟨(delay_exclusive_multipliers 300 _).1 rfl,
    (delay_exclusive_multipliers 300 _).2.1 rfl (by decide),
    (delay_exclusive_multipliers 300 _).2.2 rfl (by decide)⟩

/-- C6: for every non-empty word and strategy other than `NONE`, the
highlight range stays inside the word: `0 ≤ start`,
`0 ≤ alignIndex < len` and `end ≤ len`. -/
theorem highlight_stays_in_bounds (w : List Char) (mode : HighlightMode)
    (hw : w ≠ []) (hm : mode ≠ HighlightMode.NONE) :
    0 ≤ (getHighlightRange w mode).start ∧
    0 ≤ (getHighlightRange w mode).alignIndex ∧
    (getHighlightRange w mode).alignIndex < (w.length : Int) ∧
    (getHighlightRange w mode).«end» ≤ (w.length : Int) := by
  have hlen : 1 ≤ w.length := List.length_pos.2 hw
  cases mode with
  | NONE => exact absurd rfl hm
  | FIRST_LETTER =>
    simp only [getHighlightRange]
    refine ⟨le_refl _, le_refl _, by omega, by omega⟩
  | FIRST_TWO =>
    simp only [getHighlightRange]
    have hmin : min 2 w.length ≤ w.length := min_le_right _ _
    by_cases h2 : min 2 w.length = 2
    · rw [if_pos h2]
      have h2' : 2 ≤ w.length := by omega
      exact ⟨by norm_num, by norm_num, by omega, by omega⟩
    · rw [if_neg h2]
      exact ⟨le_refl _, le_refl _, by omega, by omega⟩
  | FIRST_HALF =>
    simp only [getHighlightRange]
    set e := jsCeil ((w.length : ℚ) / 2) with he
    have hlq : (0 : ℚ) < (w.length : ℚ) := by exact_mod_cast hlen
    have he1 : 1 ≤ e := by
      rw [he, jsCeil_eq]
      have hhalf : (0 : ℚ) < (w.length : ℚ) / 2 := div_pos hlq (by norm_num)
      have := Int.ceil_pos.2 hhalf
      omega
    have he2 : e ≤ (w.length : Int) := by
      rw [he, jsCeil_eq]
      apply Int.ceil_le.2
      push_cast
      linarith
    have hal1 : 0 ≤ jsFloor (((e : ℚ) - 1) / 2) := by
      rw [jsFloor_eq]
      apply Int.floor_nonneg.2
      have : (1 : ℚ) ≤ (e : ℚ) := by exact_mod_cast he1
      linarith
    have hal2 : jsFloor (((e : ℚ) - 1) / 2) ≤ e - 1 := by
      rw [jsFloor_eq]
      have h1 : ((e : ℚ) - 1) / 2 ≤ ((e - 1 : Int) : ℚ) := by
        have : (1 : ℚ) ≤ (e : ℚ) := by exact_mod_cast he1
        push_cast
        linarith
      calc ⌊((e : ℚ) - 1) / 2⌋ ≤ ⌊((e - 1 : Int) : ℚ)⌋ := Int.floor_le_floor h1
        _ = e - 1 := Int.floor_intCast _
    exact ⟨le_refl _, hal1, by linarith, he2⟩
  | ORP_OPTIMAL =>
    simp only [getHighlightRange]
    by_cases h1 : w.length ≤ 1
    · rw [if_pos h1]
      exact ⟨le_refl _, le_refl _, by omega, by omega⟩
    · rw [if_neg h1]
      set k := jsCeil ((w.length : ℚ) * (35 / 100)) with hk
      have hk1 : 1 ≤ k := by
        rw [hk, jsCeil_eq]
        have hlq : (0 : ℚ) < (w.length : ℚ) := by exact_mod_cast hlen
        have := Int.ceil_pos.2 (mul_pos hlq (by norm_num : (0 : ℚ) < 35 / 100))
        omega
      have hk2 : k ≤ (w.length : Int) := by
        rw [hk, jsCeil_eq]
        apply Int.ceil_le.2
        have h0 : (0 : ℚ) ≤ (w.length : ℚ) := by positivity
        push_cast
        linarith
      exact ⟨by linarith, by linarith, by linarith, by linarith⟩

/-- C6 witness: the one-letter word `"a"` under `FIRST_LETTER` stays
within `[0, 1)`. -/
theorem highlight_stays_in_bounds_witness :
    0 ≤ (getHighlightRange "a".toList .FIRST_LETTER).start ∧
    0 ≤ (getHighlightRange "a".toList .FIRST_LETTER).alignIndex ∧
    (getHighlightRange "a".toList .FIRST_LETTER).alignIndex <
      (("a".toList).length : Int) ∧
    (getHighlightRange "a".toList .FIRST_LETTER).«end» ≤
      (("a".toList).length : Int) :=
  highlight_stays_in_bounds "a".toList .FIRST_LETTER (by decide) (by decide)

/-- C7 counterexample: on the empty word the focal-point calculator does not
fail; under `ORP_OPTIMAL` it returns the ordinary (non-sentinel) range
`{start := 0, end := 1, alignIndex := 0}`, whose `end` lies outside the
empty word. -/
theorem empty_word_no_failure :
    getHighlightRange [] .ORP_OPTIMAL = ⟨0, 1, 0⟩ ∧
    ((([] : List Char).length : Int) < (getHighlightRange [] .ORP_OPTIMAL).«end») ∧
    (getHighlightRange [] .ORP_OPTIMAL).start ≠ -1 := by
  have h : getHighlightRange [] .ORP_OPTIMAL = ⟨0, 1, 0⟩ := by
    simp [getHighlightRange]
  refine ⟨h, ?_, ?_⟩ <;> rw [h] <;> decide

/-- C7 amended: `getHighlightRange` is total on the empty word and returns,
per strategy: `⟨0, 1, 0⟩` for `FIRST_LETTER` and `ORP_OPTIMAL` (out of
range, non-sentinel), `⟨0, 0, 0⟩` for `FIRST_TWO`, `⟨0, 0, -1⟩` for
`FIRST_HALF` (a negative non-sentinel `alignIndex`), and the sentinel
`⟨-1, -1, 0⟩` for `NONE`. -/
theorem empty_word_ranges :
    getHighlightRange [] .FIRST_LETTER = ⟨0, 1, 0⟩ ∧
    getHighlightRange [] .FIRST_TWO = ⟨0, 0, 0⟩ ∧
    getHighlightRange [] .FIRST_HALF = ⟨0, 0, -1⟩ ∧
    getHighlightRange [] .ORP_OPTIMAL = ⟨0, 1, 0⟩ ∧
    getHighlightRange [] .NONE = ⟨-1, -1, 0⟩ := by
  refine ⟨by simp [getHighlightRange], by simp [getHighlightRange], ?_, ?_, ?_⟩
  · simp only [getHighlightRange]
    rw [jsCeil_eq_of ((((List.length ([] : List Char)) : ℚ)) / 2) 0 (by norm_num)
      (by norm_num)]
    rw [jsFloor_eq_of _ (-1) (by norm_num) (by norm_num)]
  · simp [getHighlightRange]
  · simp only [getHighlightRange]
    rw [jsFloor_eq_of ((((List.length ([] : List Char)) : ℚ)) / 2) 0 (by norm_num)
      (by norm_num)]

/-- C3 counterexample: the empty input contains no non-whitespace character
after trimming, yet `tokenizeText` neither fails nor returns an empty
sequence — it returns one token, and that token's text is empty. -/
theorem tokenize_empty_input_yields_empty_token :
    (∀ c ∈ ([] : List Char), isWs c = true) ∧
    tokenizeText ([] : List Char) ≠ [] ∧
    ∃ t ∈ tokenizeText ([] : List Char), t.word = [] := by
  refine ⟨by simp, by decide, ?_⟩
  exact ⟨⟨[], 0, false⟩, by decide, rfl⟩

/-- C3 amended: on an input that is entirely whitespace, `tokenizeText`
returns exactly one token whose text is empty (rather than failing or
returning an empty sequence); on an input containing at least one
non-whitespace character, every returned token has non-empty text. -/
theorem tokenize_emptiness_behavior :
    (∀ s : List Char, (∀ c ∈ s, isWs c = true) →
      tokenizeText s = [⟨[], 0, false⟩]) ∧
    (∀ s : List Char, (∃ c ∈ s, isWs c = false) →
      ∀ t ∈ tokenizeText s, t.word ≠ []) := by
  constructor
  · exact fun s h => tokenizeText_of_all_ws h
  · intro s hex t ht
    exact jsSplitWs_forall_ne_nil (jsTrim s) (jsTrim_ne_nil hex)
      (jsTrim_head? s) (jsTrim_getLast? s) t.word (tokenizeText_mem ht).1

/-- C3 witness: the amended claim at the whitespace-only input `"   "` and
at `"ab cd"`, whose tokens all have non-empty text. -/
theorem tokenize_emptiness_behavior_witness :
    tokenizeText "   ".toList = [⟨[], 0, false⟩] ∧
    ∀ t ∈ tokenizeText "ab cd".toList, t.word ≠ [] :=
  ⟨tokenize_emptiness_behavior.1 "   ".toList (by decide),
    tokenize_emptiness_behavior.2 "ab cd".toList ⟨'a', by decide, by decide⟩⟩

/-- C8: every token's `hasPunctuation` flag is true exactly when the
token's final character is one of `.` `,` `;` `?` `!`; and
`"Hello, world!"` tokenizes to the two flagged tokens `"Hello,"` and
`"world!"`. -/
theorem trailing_punctuation_flag :
    (∀ (s : List Char), ∀ t ∈ tokenizeText s,
      (t.hasPunctuation = true ↔
        ∃ c, t.word.getLast? = some c ∧ isPunct c = true)) ∧
    tokenizeText "Hello, world!".toList =
      [⟨"Hello,".toList, 0, true⟩, ⟨"world!".toList, 1, true⟩] := by
  constructor
  · intro s t ht
    rw [(tokenizeText_mem ht).2]
    cases hw : t.word.getLast? with
    | none => simp [testTrailingPunct, hw]
    | some c => simp [testTrailingPunct, hw]
  · decide

/-- C8 witness: the flag criterion applied to the first token of
`"Hello, world!"`. -/
theorem trailing_punctuation_flag_witness :
    (⟨"Hello,".toList, 0, true⟩ : WordToken).hasPunctuation = true ↔
      ∃ c, (⟨"Hello,".toList, 0, true⟩ : WordToken).word.getLast? = some c ∧
        isPunct c = true :=
  trailing_punctuation_flag.1 "Hello, world!".toList
    ⟨"Hello,".toList, 0, true⟩ (by decide)

/-- C10: `tokenizeText` always returns at least one token; on a
whitespace-only input it returns exactly one token with empty text,
`originalIndex = 0` and no trailing-punctuation flag. -/
theorem tokenize_always_nonempty :
    (∀ s : List Char, 1 ≤ (tokenizeText s).length) ∧
    (∀ s : List Char, (∀ c ∈ s, isWs c = true) →
      tokenizeText s = [⟨[], 0, false⟩]) :=
  ⟨one_le_length_tokenizeText, fun _ h => tokenizeText_of_all_ws h⟩

/-- C10 witness: the whitespace-only input `"  "` and the length bound at
`"x"`. -/
theorem tokenize_always_nonempty_witness :
    tokenizeText "  ".toList = [⟨[], 0, false⟩] ∧
    1 ≤ (tokenizeText "x".toList).length :=
  ⟨tokenize_always_nonempty.2 "  ".toList (by decide),
    tokenize_always_nonempty.1 "x".toList⟩


/-- C4: at session finalization from any state reachable under the
scheduler protocol whose session has started, `handleFinish` reports
`wordsRead = cursor + 1` and `activeDurationSeconds =
(finishTime - sessionStart - accumulatedPauseDuration) / 1000`; the value
is never negative, i.e. it equals its own floor at `0`. -/
theorem finish_report (N : Nat) (s : SchedState) (t now t0 : Nat)
    (hr : Reach N s t) (hle : t ≤ now) (h0 : s.sessionStart = some t0) :
    handleFinishReport now s =
      (s.index + 1,
        (((now : ℚ) - (t0 : ℚ)) - (s.totalPauseDuration : ℚ)) / 1000, s.wpm) ∧
    0 ≤ (handleFinishReport now s).2.1 ∧
    (handleFinishReport now s).2.1 =
      max 0 ((((now : ℚ) - (t0 : ℚ)) - (s.totalPauseDuration : ℚ)) / 1000) := by
  have hinv := reach_timeInv hr
  have hb : s.totalPauseDuration + t0 ≤ now := by
    obtain ⟨ha, hbb, hc⟩ := hinv.2.2 t0 h0
    cases hps : s.pauseStart with
    | none => exact le_trans (hbb hps) hle
    | some p =>
      obtain ⟨u, v⟩ := hc p hps
      omega
  have heq : handleFinishReport now s =
      (s.index + 1,
        (((now : ℚ) - (t0 : ℚ)) - (s.totalPauseDuration : ℚ)) / 1000, s.wpm) := by
    simp [handleFinishReport, h0]
  have hq : (0 : ℚ) ≤ (((now : ℚ) - (t0 : ℚ)) - (s.totalPauseDuration : ℚ)) / 1000 := by
    apply div_nonneg _ (by norm_num)
    have hcast : ((s.totalPauseDuration + t0 : Nat) : ℚ) ≤ ((now : Nat) : ℚ) := by
      exact_mod_cast hb
    push_cast at hcast
    linarith
  refine ⟨heq, ?_, ?_⟩
  · rw [heq]
    simpa using hq
  · rw [heq]
    simpa using (max_eq_right hq).symm

/-- C4 witness: play at time 0 on a 3-token text, finish at time 5000; the
reported duration is nonnegative. -/
theorem finish_report_witness :
    0 ≤ (handleFinishReport 5000 (startReading 3 0 (initState 300))).2.1 :=
  (finish_report 3 (startReading 3 0 (initState 300)) 0 5000 0
    (Reach.play 0 (Reach.init 300 0) (Nat.le_refl 0)) (by omega) (by decide)).2.1

/-- C5: a completed session is appended to the persisted statistics exactly
when `duration > 10 ∨ wordsRead > 50`; when appended, the sessions sequence
is the old one with the single new record at the end and the totals grow by
the session's values; otherwise the statistics are returned unchanged. -/
theorem session_significance_filter (stats : ReadingStats) (now wordsRead : Nat)
    (duration : ℚ) (wpm : Nat) :
    ((10 < duration ∨ 50 < wordsRead) →
      (handleReadingFinish stats now wordsRead duration wpm).sessions =
        stats.sessions ++ [⟨now, now, wordsRead, jsRound duration, wpm⟩] ∧
      (handleReadingFinish stats now wordsRead duration wpm).totalWords =
        stats.totalWords + wordsRead ∧
      (handleReadingFinish stats now wordsRead duration wpm).totalTimeSeconds =
        stats.totalTimeSeconds + jsRound duration) ∧
    (¬(10 < duration ∨ 50 < wordsRead) →
      handleReadingFinish stats now wordsRead duration wpm = stats) ∧
    ((handleReadingFinish stats now wordsRead duration wpm).sessions ≠
        stats.sessions ↔ (10 < duration ∨ 50 < wordsRead)) := by
  by_cases h : 10 < duration ∨ 50 < wordsRead
  · refine ⟨fun _ => ?_, fun h' => absurd h h', ?_⟩
    · rw [handleReadingFinish, if_pos h]
      exact ⟨rfl, rfl, rfl⟩
    · rw [handleReadingFinish, if_pos h]
      refine ⟨fun _ => h, fun _ heq => ?_⟩
      have hlen := congrArg List.length heq
      simp at hlen
  · refine ⟨fun h' => absurd h' h, fun _ => ?_, ?_⟩
    · rw [handleReadingFinish, if_neg h]
    · rw [handleReadingFinish, if_neg h]
      simp [h]

/-- C5 witness: a 60-word, 20-second session is appended; a 3-word,
5-second session leaves the statistics unchanged. -/
theorem session_significance_filter_witness :
    (handleReadingFinish ⟨0, 0, []⟩ 99 60 20 300).sessions =
      ([] : List ReadingSession) ++ [⟨99, 99, 60, jsRound 20, 300⟩] ∧
    handleReadingFinish ⟨0, 0, []⟩ 99 3 5 300 = ⟨0, 0, []⟩ :=
  ⟨((session_significance_filter ⟨0, 0, []⟩ 99 60 20 300).1 (by norm_num)).1,
    (session_significance_filter ⟨0, 0, []⟩ 99 3 5 300).2.1 (by norm_num)⟩

/-- C9 counterexample: `pauseReading` is not idempotent — a second pause at
a later timestamp produces a different state, because the recorded
pause-start timestamp is overwritten. -/
theorem pause_not_idempotent :
    pauseReading 7 (pauseReading 5 (initState 300)) ≠
      pauseReading 5 (initState 300) := by decide

/-- C9 amended: pausing twice in a row equals a single pause only up to the
recorded pause-start timestamp: the second call changes nothing except
overwriting `pauseStart` with its own timestamp (pausing at `n₁` then `n₂`
equals a single pause at `n₂`), and when no time has elapsed between the
two calls the state is exactly unchanged. -/
theorem pause_overwrites_pause_start (s : SchedState) (n₁ n₂ : Nat) :
    pauseReading n₁ (pauseReading n₁ s) = pauseReading n₁ s ∧
    pauseReading n₂ (pauseReading n₁ s) = pauseReading n₂ s :=
  ⟨rfl, rfl⟩

end BionicFlow
